import Mathlib

/-!
Verification of the Asaphus box game (`asaphus_coding_challenge.cpp`).

The C++ source is shallowly embedded:
* `double` values are modelled as exact rationals (`ℚ`); every quantity the
  game computes on the concrete inputs of interest is exactly representable;
* `uint32_t` token weights are naturals, with an explicit `% 2 ^ 32` where the
  C++ performs unsigned 32-bit arithmetic (the `min + max` addition inside
  `BlueBox::calcScore`) and `% 65536` where it casts to `uint16_t`
  (`static_cast<uint16_t>(idx)` inside `findSmallestBox`);
* the two degenerate empty-history score computations (`0.0 / 0` giving NaN in
  `GreenBox::calcScore`, dereferencing `min_element`/`max_element` of an empty
  vector in `BlueBox::calcScore`) are modelled as `Option.none`.
-/

namespace Asaphus

/-- The two box variants of the source: `GreenBox` and `BlueBox`. -/
inductive BoxKind where
  | green : BoxKind
  | blue : BoxKind
deriving DecidableEq

/-- `class Box`: the current weight `weight_` (a `double`) and the absorption
history `absorbed_weights` (a `std::vector<uint32_t>`), together with the
dynamic type of the object (which virtual `calcScore` runs). -/
structure Box where
  kind : BoxKind
  weight : ℚ
  absorbed : List ℕ
deriving DecidableEq

instance : Inhabited Box := ⟨⟨BoxKind.green, 0, []⟩⟩

/-- The accumulation loop of `GreenBox::calcScore`:
`for (w : recent_weights) mean_weight += static_cast<double>(w)`. -/
def sumQ (l : List ℕ) : ℚ := l.foldl (fun acc w => acc + (w : ℚ)) 0

/-- `GreenBox::calcScore`: `recent_weights` is the whole history when its
size is `< 3`, else the three entries `at(n-3), at(n-2), at(n-1)`; the score
is the square of `mean_weight / recent_weights.size()`.  On an empty history
the C++ divides `0.0` by `0` (NaN); that branch is modelled as `none`. -/
def greenCalcScore (absorbed : List ℕ) : Option ℚ :=
  let n := absorbed.length
  let recent : List ℕ :=
    if n < 3 then absorbed
    else [absorbed.getD (n - 3) 0, absorbed.getD (n - 2) 0, absorbed.getD (n - 1) 0]
  if recent.length = 0 then none
  else
    let mean : ℚ := sumQ recent / (recent.length : ℚ)
    some (mean * mean)

/-- `BlueBox::pairing`: `double sum = static_cast<double>(min + max)` adds the
two `uint32_t` values in 32-bit arithmetic (wrapping `% 2 ^ 32`) and only then
promotes to `double`; the result is `sum * (sum + 1) / 2 + max`. -/
def pairing (mn mx : ℕ) : ℚ :=
  let sum : ℚ := (((mn + mx) % 2 ^ 32 : ℕ) : ℚ)
  sum * (sum + 1) / 2 + (mx : ℚ)

/-- `BlueBox::calcScore`: `*min_element` / `*max_element` over the whole
history; on an empty history both dereference the end iterator (undefined
behaviour), modelled as `none`. -/
def blueCalcScore (absorbed : List ℕ) : Option ℚ :=
  match absorbed with
  | [] => none
  | a :: rest => some (pairing (rest.foldl Nat.min a) (rest.foldl Nat.max a))

/-- Virtual dispatch of `calcScore` over the dynamic box type. -/
def calcScore (b : Box) : Option ℚ :=
  match b.kind with
  | BoxKind.green => greenCalcScore b.absorbed
  | BoxKind.blue => blueCalcScore b.absorbed

/-- `Box::boxAbsorb`: append the token to `absorbed_weights` and add it (as a
real) to `weight_`. -/
def boxAbsorb (b : Box) (w : ℕ) : Box :=
  { b with absorbed := b.absorbed ++ [w], weight := b.weight + (w : ℚ) }

/-- One iteration of the `findSmallestBox` loop body:
`if (*boxes[idx] < *boxes[small_idx]) small_idx = static_cast<uint16_t>(idx)`.
The `uint16_t` cast is `% 65536`. -/
def selStep (boxes : List Box) (small idx : ℕ) : ℕ :=
  if (boxes.getD idx default).weight < (boxes.getD small default).weight then idx % 65536
  else small

/-- `findSmallestBox`: `small_idx` starts at `0`, the loop runs
`idx = 1, …, boxes.size() - 1`. -/
def findSmallestBox (boxes : List Box) : ℕ :=
  (List.range' 1 (boxes.length - 1)).foldl (selStep boxes) 0

/-- `Player::takeTurn`: select the smallest box, let it absorb the input
weight, then add that box's `calcScore()` to the player's score.  Returns the
new score and the updated box collection, or `none` if the score computation
hits an empty-history branch. -/
def takeTurn (score : ℚ) (boxes : List Box) (w : ℕ) : Option (ℚ × List Box) :=
  let idx := findSmallestBox boxes
  let boxes' := boxes.set idx (boxAbsorb (boxes.getD idx default) w)
  match calcScore (boxes'.getD idx default) with
  | some s => some (score + s, boxes')
  | none => none

/-- The state of one `play` invocation: the saturating `uint16_t` turn counter
`count`, the shared box collection, and the two players' scores. -/
structure PlayState where
  count : ℕ
  boxes : List Box
  scoreA : ℚ
  scoreB : ℚ
deriving DecidableEq

/-- The counter update `if (count < 65535u) count++` of the `play` loop. -/
def bumpCount (c : ℕ) : ℕ := if c < 65535 then c + 1 else c

/-- One iteration of the `play` loop: player A takes the turn when
`count % 2 == 0`, player B otherwise, then the counter is bumped. -/
def stepTurn (st : PlayState) (w : ℕ) : Option PlayState :=
  if st.count % 2 = 0 then
    match takeTurn st.scoreA st.boxes w with
    | some (s, bs) => some ⟨bumpCount st.count, bs, s, st.scoreB⟩
    | none => none
  else
    match takeTurn st.scoreB st.boxes w with
    | some (s, bs) => some ⟨bumpCount st.count, bs, st.scoreA, s⟩
    | none => none

/-- The fixed box collection constructed at the start of `play`:
two green boxes with initial weights `0.0`, `0.1`, then two blue boxes with
initial weights `0.2`, `0.3`. -/
def initialBoxes : List Box :=
  [⟨BoxKind.green, 0, []⟩, ⟨BoxKind.green, 1/10, []⟩,
   ⟨BoxKind.blue, 2/10, []⟩, ⟨BoxKind.blue, 3/10, []⟩]

/-- The state at the start of `play`: counter `0`, fresh boxes, zero scores. -/
def initState : PlayState := ⟨0, initialBoxes, 0, 0⟩

/-- The `play` loop over the remaining input weights. -/
def runTurns (st : PlayState) (ws : List ℕ) : Option PlayState :=
  match ws with
  | [] => some st
  | w :: rest =>
    match stepTurn st w with
    | some st' => runTurns st' rest
    | none => none

/-- `play`: run all turns from the fresh initial state and return
`(player_A.getScore(), player_B.getScore())`. -/
def play (ws : List ℕ) : Option (ℚ × ℚ) :=
  (runTurns initState ws).map (fun st => (st.scoreA, st.scoreB))

/-- Modelled from the spec for comparison with `greenCalcScore`: the window
"the last `min(3, len(history))` elements of the history". -/
def specWindow (hist : List ℕ) : List ℕ := hist.drop (hist.length - 3)

/-- Modelled from the spec for comparison with `greenCalcScore`: the mean of
the last `min(3, len(history))` elements. -/
def specMean (hist : List ℕ) : ℚ :=
  sumQ (specWindow hist) / ((min 3 hist.length : ℕ) : ℚ)

/-- A box of current weight `1` with empty history (test fixture for the
`uint16_t` truncation counterexample). -/
def boxOne : Box := ⟨BoxKind.green, 1, []⟩

/-- A box of current weight `0` with empty history (test fixture for the
`uint16_t` truncation counterexample). -/
def boxZero : Box := ⟨BoxKind.green, 0, []⟩

/-- A collection of `65537` boxes whose unique minimum-weight box sits at
index `65536`, where `static_cast<uint16_t>` wraps to `0`. -/
def badBoxes : List Box := List.replicate 65536 boxOne ++ [boxZero]

/-- The game state after `play` has consumed the single input weight `5`
(fixture used to instantiate theorems at a concrete run). -/
def stateAfterFive : PlayState :=
  ⟨1, [⟨BoxKind.green, 5, [5]⟩, ⟨BoxKind.green, 1/10, []⟩,
    ⟨BoxKind.blue, 2/10, []⟩, ⟨BoxKind.blue, 3/10, []⟩], 25, 0⟩

/-! ### Helper lemmas -/

@[simp] lemma sumQ_nil : sumQ [] = 0 := rfl

lemma sumQ_append (l : List ℕ) (w : ℕ) : sumQ (l ++ [w]) = sumQ l + (w : ℚ) := by
  simp [sumQ, List.foldl_append]

lemma getD_set_self (l : List Box) (i : ℕ) (b : Box) (h : i < l.length) :
    (l.set i b).getD i default = b := by
  simp [List.getD_eq_getElem?_getD, List.getElem?_set_self h]

lemma getD_set_ne (l : List Box) (i j : ℕ) (b : Box) (h : i ≠ j) :
    (l.set i b).getD j default = l.getD j default := by
  simp [List.getD_eq_getElem?_getD, List.getElem?_set_ne h]

lemma foldl_min_le (l : List ℕ) : ∀ (a x : ℕ), x ∈ a :: l → l.foldl Nat.min a ≤ x := by
  induction l with
  | nil =>
    intro a x hx
    rcases List.mem_singleton.mp hx with rfl
    exact Nat.le_refl _
  | cons b t ih =>
    intro a x hx
    show t.foldl Nat.min (Nat.min a b) ≤ x
    have hhead : t.foldl Nat.min (Nat.min a b) ≤ Nat.min a b :=
      ih (Nat.min a b) (Nat.min a b) (List.mem_cons_self _ _)
    rcases List.mem_cons.mp hx with rfl | hx
    · exact le_trans hhead (Nat.min_le_left _ _)
    · rcases List.mem_cons.mp hx with rfl | hx
      · exact le_trans hhead (Nat.min_le_right _ _)
      · exact ih (Nat.min a b) x (List.mem_cons_of_mem _ hx)

lemma foldl_min_mem (l : List ℕ) : ∀ a : ℕ, l.foldl Nat.min a ∈ a :: l := by
  induction l with
  | nil => intro a; exact List.mem_singleton.mpr rfl
  | cons b t ih =>
    intro a
    show t.foldl Nat.min (Nat.min a b) ∈ a :: b :: t
    rcases List.mem_cons.mp (ih (Nat.min a b)) with he | ht
    · rw [he]
      rcases Nat.le_total a b with hab | hba
      · rw [show Nat.min a b = a from by show min a b = a; omega]; exact List.mem_cons_self _ _
      · rw [show Nat.min a b = b from by show min a b = b; omega]
        exact List.mem_cons_of_mem _ (List.mem_cons_self _ _)
    · exact List.mem_cons_of_mem _ (List.mem_cons_of_mem _ ht)

lemma le_foldl_max (l : List ℕ) : ∀ (a x : ℕ), x ∈ a :: l → x ≤ l.foldl Nat.max a := by
  induction l with
  | nil =>
    intro a x hx
    rcases List.mem_singleton.mp hx with rfl
    exact Nat.le_refl _
  | cons b t ih =>
    intro a x hx
    show x ≤ t.foldl Nat.max (Nat.max a b)
    have hhead : Nat.max a b ≤ t.foldl Nat.max (Nat.max a b) :=
      ih (Nat.max a b) (Nat.max a b) (List.mem_cons_self _ _)
    rcases List.mem_cons.mp hx with rfl | hx
    · exact le_trans (Nat.le_max_left _ _) hhead
    · rcases List.mem_cons.mp hx with rfl | hx
      · exact le_trans (Nat.le_max_right _ _) hhead
      · exact ih (Nat.max a b) x (List.mem_cons_of_mem _ hx)

lemma foldl_max_mem (l : List ℕ) : ∀ a : ℕ, l.foldl Nat.max a ∈ a :: l := by
  induction l with
  | nil => intro a; exact List.mem_singleton.mpr rfl
  | cons b t ih =>
    intro a
    show t.foldl Nat.max (Nat.max a b) ∈ a :: b :: t
    rcases List.mem_cons.mp (ih (Nat.max a b)) with he | ht
    · rw [he]
      rcases Nat.le_total a b with hab | hba
      · rw [show Nat.max a b = b from by show max a b = b; omega]
        exact List.mem_cons_of_mem _ (List.mem_cons_self _ _)
      · rw [show Nat.max a b = a from by show max a b = a; omega]; exact List.mem_cons_self _ _
    · exact List.mem_cons_of_mem _ (List.mem_cons_of_mem _ ht)

lemma drop_last_three (l : List ℕ) (h : 3 ≤ l.length) :
    l.drop (l.length - 3)
      = [l.getD (l.length - 3) 0, l.getD (l.length - 2) 0, l.getD (l.length - 1) 0] := by
  have h1 : l.length - 3 < l.length := by omega
  have h2 : l.length - 2 < l.length := by omega
  have h3 : l.length - 1 < l.length := by omega
  rw [List.drop_eq_getElem_cons h1, show l.length - 3 + 1 = l.length - 2 from by omega,
    List.drop_eq_getElem_cons h2, show l.length - 2 + 1 = l.length - 1 from by omega,
    List.drop_eq_getElem_cons h3, show l.length - 1 + 1 = l.length from by omega,
    List.drop_length]
  rw [List.getD_eq_getElem l 0 h1, List.getD_eq_getElem l 0 h2, List.getD_eq_getElem l 0 h3]

lemma greenCalcScore_eq_specMean (hist : List ℕ) (h : hist ≠ []) :
    greenCalcScore hist = some (specMean hist * specMean hist) := by
  have hne : hist.length ≠ 0 := fun hz => h (List.length_eq_zero.mp hz)
  by_cases h3 : hist.length < 3
  · have hd : hist.length - 3 = 0 := by omega
    have hmin : min 3 hist.length = hist.length := by omega
    simp only [greenCalcScore, specMean, specWindow, if_pos h3, if_neg hne, hd,
      List.drop_zero, hmin]
  · have hge : 3 ≤ hist.length := by omega
    have hmin : min 3 hist.length = 3 := by omega
    simp only [greenCalcScore, specMean, specWindow, if_neg h3, drop_last_three hist hge, hmin,
      List.length_cons, List.length_nil]
    norm_num

lemma blueCalcScore_eq_pairing (hist : List ℕ) (m M : ℕ)
    (hm : m ∈ hist) (hM : M ∈ hist)
    (hlb : ∀ x ∈ hist, m ≤ x) (hub : ∀ x ∈ hist, x ≤ M) :
    blueCalcScore hist = some (pairing m M) := by
  cases hist with
  | nil => simp at hm
  | cons a rest =>
    have hmin : rest.foldl Nat.min a = m :=
      Nat.le_antisymm (foldl_min_le rest a m hm) (hlb _ (foldl_min_mem rest a))
    have hmax : rest.foldl Nat.max a = M :=
      Nat.le_antisymm (hub _ (foldl_max_mem rest a)) (le_foldl_max rest a M hM)
    simp [blueCalcScore, hmin, hmax]

lemma pairing_nonneg (mn mx : ℕ) : 0 ≤ pairing mn mx := by
  simp only [pairing]
  positivity

lemma selFold_invariant (boxes : List Box) :
    ∀ (k start s : ℕ),
      s < start →
      (∀ j, j < start → (boxes.getD s default).weight ≤ (boxes.getD j default).weight) →
      (∀ j, j < s → (boxes.getD s default).weight < (boxes.getD j default).weight) →
      start + k ≤ 65536 →
      (List.range' start k).foldl (selStep boxes) s < start + k ∧
        (∀ j, j < start + k →
          (boxes.getD ((List.range' start k).foldl (selStep boxes) s) default).weight
            ≤ (boxes.getD j default).weight) ∧
        (∀ j, j < (List.range' start k).foldl (selStep boxes) s →
          (boxes.getD ((List.range' start k).foldl (selStep boxes) s) default).weight
            < (boxes.getD j default).weight) := by
  intro k
  induction k with
  | zero =>
    intro start s hs hle hlt _
    have hfold : (List.range' start 0).foldl (selStep boxes) s = s := rfl
    rw [hfold]
    exact ⟨by omega, fun j hj => hle j (by omega), hlt⟩
  | succ k ih =>
    intro start s hs hle hlt hb
    have hfold : (List.range' start (k + 1)).foldl (selStep boxes) s
        = (List.range' (start + 1) k).foldl (selStep boxes) (selStep boxes s start) := by
      rw [List.range'_succ]
      rfl
    rw [hfold]
    by_cases hc : (boxes.getD start default).weight < (boxes.getD s default).weight
    · have hsel : selStep boxes s start = start := by
        simp only [selStep]
        rw [if_pos hc, Nat.mod_eq_of_lt (show start < 65536 by omega)]
      have h2 : ∀ j, j < start + 1 →
          (boxes.getD start default).weight ≤ (boxes.getD j default).weight := by
        intro j hj
        rcases (show j < start ∨ j = start from by omega) with hj' | rfl
        · exact (hc.trans_le (hle j hj')).le
        · exact le_refl _
      have h3 : ∀ j, j < start →
          (boxes.getD start default).weight < (boxes.getD j default).weight := by
        intro j hj
        exact hc.trans_le (hle j hj)
      have key := ih (start + 1) start (Nat.lt_succ_self _) h2 h3 (by omega)
      rw [hsel]
      rw [show start + 1 + k = start + (k + 1) from by omega] at key
      exact key
    · have hsel : selStep boxes s start = s := by
        simp only [selStep]
        rw [if_neg hc]
      have h2 : ∀ j, j < start + 1 →
          (boxes.getD s default).weight ≤ (boxes.getD j default).weight := by
        intro j hj
        rcases (show j < start ∨ j = start from by omega) with hj' | rfl
        · exact hle j hj'
        · exact not_lt.mp hc
      have key := ih (start + 1) s (by omega) h2 hlt (by omega)
      rw [hsel]
      rw [show start + 1 + k = start + (k + 1) from by omega] at key
      exact key

lemma selFold_lt (boxes : List Box) (n : ℕ) :
    ∀ (l : List ℕ) (s : ℕ), s < n → (∀ idx ∈ l, idx < n) → l.foldl (selStep boxes) s < n := by
  intro l
  induction l with
  | nil =>
    intro s hs _
    exact hs
  | cons a t ih =>
    intro s hs hmem
    show t.foldl (selStep boxes) (selStep boxes s a) < n
    apply ih
    · simp only [selStep]
      split
      · exact lt_of_le_of_lt (Nat.mod_le a 65536) (hmem a (List.mem_cons_self _ _))
      · exact hs
    · intro idx hidx
      exact hmem idx (List.mem_cons_of_mem _ hidx)

lemma findSmallestBox_lt (boxes : List Box) (h : boxes ≠ []) :
    findSmallestBox boxes < boxes.length := by
  have hpos : 0 < boxes.length := List.length_pos.mpr h
  show (List.range' 1 (boxes.length - 1)).foldl (selStep boxes) 0 < boxes.length
  apply selFold_lt boxes boxes.length _ 0 hpos
  intro idx hidx
  rw [List.mem_range'] at hidx
  obtain ⟨i, hi, rfl⟩ := hidx
  omega

lemma findSmallestBox_spec (boxes : List Box) (h1 : boxes ≠ []) (h2 : boxes.length ≤ 65536) :
    (∀ j, j < boxes.length →
      (boxes.getD (findSmallestBox boxes) default).weight ≤ (boxes.getD j default).weight) ∧
    (∀ j, j < findSmallestBox boxes →
      (boxes.getD (findSmallestBox boxes) default).weight < (boxes.getD j default).weight) := by
  have hpos : 0 < boxes.length := List.length_pos.mpr h1
  have key := selFold_invariant boxes (boxes.length - 1) 1 0 (by omega)
    (fun j hj => by rw [show j = 0 from by omega])
    (fun j hj => absurd hj (Nat.not_lt_zero j)) (by omega)
  rw [show 1 + (boxes.length - 1) = boxes.length from by omega] at key
  exact ⟨key.2.1, key.2.2⟩

lemma boxAbsorb_absorbed_ne_nil (b : Box) (w : ℕ) : (boxAbsorb b w).absorbed ≠ [] := by
  simp [boxAbsorb]

lemma greenCalcScore_isSome (hist : List ℕ) (h : hist ≠ []) :
    (greenCalcScore hist).isSome = true := by
  have hne : hist.length ≠ 0 := fun hz => h (List.length_eq_zero.mp hz)
  by_cases h3 : hist.length < 3
  · simp only [greenCalcScore, if_pos h3, if_neg hne, Option.isSome_some]
  · simp only [greenCalcScore, if_neg h3, List.length_cons, List.length_nil]
    norm_num

lemma blueCalcScore_isSome (hist : List ℕ) (h : hist ≠ []) :
    (blueCalcScore hist).isSome = true := by
  cases hist with
  | nil => exact absurd rfl h
  | cons a rest => rfl

lemma calcScore_isSome (b : Box) (h : b.absorbed ≠ []) : (calcScore b).isSome = true := by
  unfold calcScore
  cases hbk : b.kind
  · exact greenCalcScore_isSome _ h
  · exact blueCalcScore_isSome _ h

lemma greenCalcScore_nonneg (hist : List ℕ) (q : ℚ) (h : greenCalcScore hist = some q) :
    0 ≤ q := by
  simp only [greenCalcScore] at h
  split at h
  · split at h
    · exact absurd h (by simp)
    · simp only [Option.some.injEq] at h
      subst h
      exact mul_self_nonneg _
  · split at h
    · exact absurd h (by simp)
    · simp only [Option.some.injEq] at h
      subst h
      exact mul_self_nonneg _

lemma blueCalcScore_nonneg (hist : List ℕ) (q : ℚ) (h : blueCalcScore hist = some q) :
    0 ≤ q := by
  cases hist with
  | nil => exact absurd h (by simp [blueCalcScore])
  | cons a rest =>
    simp only [blueCalcScore, Option.some.injEq] at h
    subst h
    exact pairing_nonneg _ _

lemma calcScore_nonneg (b : Box) (q : ℚ) (h : calcScore b = some q) : 0 ≤ q := by
  unfold calcScore at h
  cases hbk : b.kind
  · rw [hbk] at h
    exact greenCalcScore_nonneg _ _ h
  · rw [hbk] at h
    exact blueCalcScore_nonneg _ _ h

lemma calcScore_some_of_ne_nil (b : Box) (h : b.absorbed ≠ []) :
    ∃ q, calcScore b = some q ∧ 0 ≤ q := by
  obtain ⟨q, hq⟩ := Option.isSome_iff_exists.mp (calcScore_isSome b h)
  exact ⟨q, hq, calcScore_nonneg b q hq⟩

lemma takeTurn_eq (score : ℚ) (boxes : List Box) (w : ℕ) (h : boxes ≠ []) :
    ∃ q, 0 ≤ q ∧
      takeTurn score boxes w
        = some (score + q,
            boxes.set (findSmallestBox boxes)
              (boxAbsorb (boxes.getD (findSmallestBox boxes) default) w)) := by
  have hlt : findSmallestBox boxes < boxes.length := findSmallestBox_lt boxes h
  have hset : (boxes.set (findSmallestBox boxes)
        (boxAbsorb (boxes.getD (findSmallestBox boxes) default) w)).getD
        (findSmallestBox boxes) default
      = boxAbsorb (boxes.getD (findSmallestBox boxes) default) w :=
    getD_set_self _ _ _ hlt
  obtain ⟨q, hq, hq0⟩ := calcScore_some_of_ne_nil
    (boxAbsorb (boxes.getD (findSmallestBox boxes) default) w)
    (boxAbsorb_absorbed_ne_nil _ _)
  refine ⟨q, hq0, ?_⟩
  simp only [takeTurn]
  rw [hset, hq]

lemma stepTurn_char (st : PlayState) (w : ℕ) (h : st.boxes ≠ []) :
    ∃ st', stepTurn st w = some st'
      ∧ st'.count = bumpCount st.count
      ∧ st'.boxes = st.boxes.set (findSmallestBox st.boxes)
          (boxAbsorb (st.boxes.getD (findSmallestBox st.boxes) default) w)
      ∧ st.scoreA ≤ st'.scoreA ∧ st.scoreB ≤ st'.scoreB
      ∧ (st.count % 2 = 0 → st'.scoreB = st.scoreB)
      ∧ (st.count % 2 ≠ 0 → st'.scoreA = st.scoreA) := by
  by_cases hc : st.count % 2 = 0
  · obtain ⟨q, hq0, htake⟩ := takeTurn_eq st.scoreA st.boxes w h
    refine ⟨⟨bumpCount st.count, _, st.scoreA + q, st.scoreB⟩, ?_, rfl, rfl,
      by simpa using hq0, le_refl _, fun _ => rfl, fun hb => absurd hc hb⟩
    simp only [stepTurn, if_pos hc, htake]
  · obtain ⟨q, hq0, htake⟩ := takeTurn_eq st.scoreB st.boxes w h
    refine ⟨⟨bumpCount st.count, _, st.scoreA, st.scoreB + q⟩, ?_, rfl, rfl,
      le_refl _, by simpa using hq0, fun he => absurd he hc, fun _ => rfl⟩
    simp only [stepTurn, if_neg hc, htake]

lemma runTurns_char (ws : List ℕ) :
    ∀ st : PlayState, st.boxes ≠ [] →
      ∃ st', runTurns st ws = some st'
        ∧ st'.boxes.length = st.boxes.length
        ∧ st'.count = bumpCount^[ws.length] st.count
        ∧ st.scoreA ≤ st'.scoreA ∧ st.scoreB ≤ st'.scoreB := by
  induction ws with
  | nil =>
    intro st h
    exact ⟨st, rfl, rfl, rfl, le_refl _, le_refl _⟩
  | cons w rest ih =>
    intro st h
    obtain ⟨st1, hstep, hcount, hboxes, hA, hB, _, _⟩ := stepTurn_char st w h
    have hlen1 : st1.boxes.length = st.boxes.length := by
      rw [hboxes, List.length_set]
    have h1 : st1.boxes ≠ [] := by
      apply List.ne_nil_of_length_pos
      rw [hlen1]
      exact List.length_pos.mpr h
    obtain ⟨st', hrun, hlen, hcount', hA', hB'⟩ := ih st1 h1
    refine ⟨st', ?_, ?_, ?_, le_trans hA hA', le_trans hB hB'⟩
    · simp only [runTurns, hstep, hrun]
    · rw [hlen, hlen1]
    · rw [hcount', hcount, List.length_cons, Function.iterate_succ_apply]

lemma bumpCount_iterate_zero : ∀ n : ℕ, bumpCount^[n] 0 = min n 65535 := by
  intro n
  induction n with
  | zero => simp
  | succ n ih =>
    rw [Function.iterate_succ_apply', ih]
    unfold bumpCount
    split <;> omega

lemma initialBoxes_ne_nil : initialBoxes ≠ [] := by simp [initialBoxes]

lemma stepTurn_inv (st st' : PlayState) (w : ℕ)
    (h : stepTurn st w = some st')
    (hlen : st.boxes.length = initialBoxes.length)
    (hinv : ∀ i, i < st.boxes.length →
      (st.boxes.getD i default).weight
        = (initialBoxes.getD i default).weight + sumQ (st.boxes.getD i default).absorbed) :
    st'.boxes.length = initialBoxes.length ∧
      ∀ i, i < st'.boxes.length →
        (st'.boxes.getD i default).weight
          = (initialBoxes.getD i default).weight + sumQ (st'.boxes.getD i default).absorbed := by
  have hne : st.boxes ≠ [] := by
    apply List.ne_nil_of_length_pos
    rw [hlen]
    simp [initialBoxes]
  obtain ⟨st'', hstep, _, hboxes, _, _, _, _⟩ := stepTurn_char st w hne
  rw [h] at hstep
  obtain rfl : st' = st'' := Option.some.inj hstep
  have hlt : findSmallestBox st.boxes < st.boxes.length := findSmallestBox_lt _ hne
  constructor
  · rw [hboxes, List.length_set, hlen]
  · intro i hi
    rw [hboxes, List.length_set] at hi
    rw [hboxes]
    by_cases hij : findSmallestBox st.boxes = i
    · subst hij
      rw [getD_set_self _ _ _ hlt]
      simp only [boxAbsorb]
      rw [sumQ_append, hinv (findSmallestBox st.boxes) hlt]
      ring
    · rw [getD_set_ne _ _ _ _ hij]
      exact hinv i hi

lemma runTurns_inv (ws : List ℕ) :
    ∀ st st' : PlayState, runTurns st ws = some st' →
      st.boxes.length = initialBoxes.length →
      (∀ i, i < st.boxes.length →
        (st.boxes.getD i default).weight
          = (initialBoxes.getD i default).weight + sumQ (st.boxes.getD i default).absorbed) →
      st'.boxes.length = initialBoxes.length ∧
        ∀ i, i < st'.boxes.length →
          (st'.boxes.getD i default).weight
            = (initialBoxes.getD i default).weight + sumQ (st'.boxes.getD i default).absorbed := by
  induction ws with
  | nil =>
    intro st st' h hlen hinv
    obtain rfl : st = st' := Option.some.inj h
    exact ⟨hlen, hinv⟩
  | cons w rest ih =>
    intro st st' h hlen hinv
    simp only [runTurns] at h
    cases hstep : stepTurn st w with
    | none => rw [hstep] at h; exact absurd h (by simp)
    | some st1 =>
      rw [hstep] at h
      obtain ⟨hlen1, hinv1⟩ := stepTurn_inv st st1 w hstep hlen hinv
      exact ih st1 st' h hlen1 hinv1

lemma badBoxes_length : badBoxes.length = 65537 := by
  rw [badBoxes, List.length_append, List.length_replicate]
  rfl

lemma badBoxes_getD_lt (i : ℕ) (h : i < 65536) : badBoxes.getD i default = boxOne := by
  simp only [badBoxes, List.getD_eq_getElem?_getD]
  rw [List.getElem?_append_left (by rw [List.length_replicate]; exact h),
    List.getElem?_replicate_of_lt h]
  rfl

lemma badBoxes_getD_last : badBoxes.getD 65536 default = boxZero := by
  simp only [badBoxes, List.getD_eq_getElem?_getD]
  rw [List.getElem?_append_right (by rw [List.length_replicate])]
  rw [List.length_replicate]
  rfl

lemma foldl_id_of_mem (f : ℕ → ℕ → ℕ) (s : ℕ) :
    ∀ l : List ℕ, (∀ a ∈ l, f s a = s) → l.foldl f s = s := by
  intro l
  induction l with
  | nil => intro _; rfl
  | cons a t ih =>
    intro h
    show t.foldl f (f s a) = s
    rw [h a (List.mem_cons_self _ _)]
    exact ih (fun b hb => h b (List.mem_cons_of_mem _ hb))

lemma findSmallestBox_badBoxes : findSmallestBox badBoxes = 0 := by
  have hin : (List.range' 1 65535).foldl (selStep badBoxes) 0 = 0 := by
    apply foldl_id_of_mem
    intro a ha
    rw [List.mem_range'] at ha
    obtain ⟨i, hi, rfl⟩ := ha
    simp only [selStep]
    rw [badBoxes_getD_lt (1 + 1 * i) (by omega), badBoxes_getD_lt 0 (by norm_num)]
    exact if_neg (lt_irrefl _)
  unfold findSmallestBox
  rw [badBoxes_length, show (65537 : ℕ) - 1 = 65535 + 1 from by norm_num,
    List.range'_concat, List.foldl_append, hin]
  rw [List.foldl_cons, List.foldl_nil]
  rw [show 1 + 1 * 65535 = 65536 from by norm_num]
  simp only [selStep]
  rw [badBoxes_getD_last, badBoxes_getD_lt 0 (by norm_num)]
  rw [if_pos (show boxZero.weight < boxOne.weight by norm_num [boxZero, boxOne])]

lemma takeTurn_mono (sc : ℚ) (boxes : List Box) (w : ℕ) (r : ℚ × List Box)
    (h : takeTurn sc boxes w = some r) : sc ≤ r.1 := by
  simp only [takeTurn] at h
  cases hq : calcScore ((boxes.set (findSmallestBox boxes)
      (boxAbsorb (boxes.getD (findSmallestBox boxes) default) w)).getD
      (findSmallestBox boxes) default) with
  | none => rw [hq] at h; exact absurd h (by simp)
  | some s =>
    rw [hq] at h
    obtain rfl := Option.some.inj h
    exact le_add_of_nonneg_right (calcScore_nonneg _ _ hq)

lemma stepTurn_mono (st st' : PlayState) (w : ℕ) (h : stepTurn st w = some st') :
    st.scoreA ≤ st'.scoreA ∧ st.scoreB ≤ st'.scoreB := by
  simp only [stepTurn] at h
  split at h
  · cases htake : takeTurn st.scoreA st.boxes w with
    | none => rw [htake] at h; exact absurd h (by simp)
    | some r =>
      rw [htake] at h
      cases r with
      | mk s bs =>
        obtain rfl := Option.some.inj h
        exact ⟨takeTurn_mono _ _ _ _ htake, le_refl _⟩
  · cases htake : takeTurn st.scoreB st.boxes w with
    | none => rw [htake] at h; exact absurd h (by simp)
    | some r =>
      rw [htake] at h
      cases r with
      | mk s bs =>
        obtain rfl := Option.some.inj h
        exact ⟨le_refl _, takeTurn_mono _ _ _ _ htake⟩

lemma runTurns_mono (ws : List ℕ) :
    ∀ st st' : PlayState, runTurns st ws = some st' →
      st.scoreA ≤ st'.scoreA ∧ st.scoreB ≤ st'.scoreB := by
  induction ws with
  | nil =>
    intro st st' h
    obtain rfl := Option.some.inj h
    exact ⟨le_refl _, le_refl _⟩
  | cons w rest ih =>
    intro st st' h
    simp only [runTurns] at h
    cases hstep : stepTurn st w with
    | none => rw [hstep] at h; exact absurd h (by simp)
    | some st1 =>
      rw [hstep] at h
      obtain ⟨hA, hB⟩ := stepTurn_mono st st1 w hstep
      obtain ⟨hA', hB'⟩ := ih st1 st' h
      exact ⟨le_trans hA hA', le_trans hB hB'⟩

lemma runTurns_initState_five : runTurns initState [5] = some stateAfterFive := by
  norm_num [runTurns, stepTurn, takeTurn, findSmallestBox, selStep, calcScore,
    greenCalcScore, blueCalcScore, boxAbsorb, sumQ, initState, initialBoxes, bumpCount,
    pairing, stateAfterFive, List.range', List.getD]

/-! ### Claims -/

/-- C1 (amended): for every input sequence and every index `i < 65536` that is
in range, the `i`-th (0-indexed) weight is processed from a state whose turn
counter has the parity of `i` — so the turn is attributed to player A exactly
when `i` is even (A moves first), and that turn leaves the other player's
score unchanged.  The restriction `i < 65536` is forced by the saturating
`uint16_t` counter: from index 65536 on, every turn is player B's. -/
theorem turn_alternation (ws : List ℕ) (i : ℕ) (h1 : i < ws.length) (h2 : i < 65536) :
    ∃ st, runTurns initState (ws.take i) = some st
      ∧ (st.count % 2 = 0 ↔ i % 2 = 0)
      ∧ ∀ (w : ℕ) (st' : PlayState), stepTurn st w = some st' →
          (i % 2 = 0 → st'.scoreB = st.scoreB) ∧ (i % 2 ≠ 0 → st'.scoreA = st.scoreA) := by
  obtain ⟨st, hrun, hlen, hcount, _, _⟩ :=
    runTurns_char (ws.take i) initState initialBoxes_ne_nil
  have hlent : (ws.take i).length = i := by
    rw [List.length_take]
    omega
  have hc : st.count = i := by
    rw [hcount, hlent, show initState.count = 0 from rfl, bumpCount_iterate_zero]
    omega
  refine ⟨st, hrun, by rw [hc], ?_⟩
  intro w st' hstep
  have hne : st.boxes ≠ [] := by
    apply List.ne_nil_of_length_pos
    rw [hlen]
    norm_num [initState, initialBoxes]
  obtain ⟨st'', hstep', _, _, _, _, hevenB, hoddA⟩ := stepTurn_char st w hne
  rw [hstep] at hstep'
  obtain rfl : st' = st'' := Option.some.inj hstep'
  rw [hc] at hevenB hoddA
  exact ⟨hevenB, hoddA⟩

/-- Witness for C1 at the concrete input `[3, 4]`, index `1`. -/
theorem turn_alternation_witness :
    ∃ st, runTurns initState ([3, 4].take 1) = some st
      ∧ (st.count % 2 = 0 ↔ 1 % 2 = 0)
      ∧ ∀ (w : ℕ) (st' : PlayState), stepTurn st w = some st' →
          (1 % 2 = 0 → st'.scoreB = st.scoreB) ∧ (1 % 2 ≠ 0 → st'.scoreA = st.scoreA) :=
  turn_alternation [3, 4] 1 (by norm_num) (by norm_num)

/-- Counterexample to C1 as stated: on an input of 65537 weights, the weight
at index 65536 — an even index, which the claim attributes to player A — is
processed from a state whose saturated counter is `65535`, an odd value, so
the `count % 2 == 0` branch is not taken and the turn is player B's. -/
theorem turn_alternation_counterexample :
    (65536 : ℕ) % 2 = 0
    ∧ (List.replicate 65537 (0 : ℕ)).take 65536 = List.replicate 65536 (0 : ℕ)
    ∧ (runTurns initState (List.replicate 65536 (0 : ℕ))).map (fun st => st.count % 2)
        = some 1 := by
  refine ⟨by norm_num, ?_, ?_⟩
  · rw [List.take_replicate]
    norm_num
  · obtain ⟨st, hrun, _, hcount, _, _⟩ :=
      runTurns_char (List.replicate 65536 (0 : ℕ)) initState initialBoxes_ne_nil
    have hc : st.count = 65535 := by
      rw [hcount, show initState.count = 0 from rfl, List.length_replicate,
        bumpCount_iterate_zero]
      omega
    rw [hrun]
    simp [hc]

/-- C2 (amended): for a non-empty blue-box history with minimum `m` and
maximum `M`, `calcScore` returns `s*(s+1)/2 + M` where `s` is the sum `m + M`
computed in unsigned 32-bit arithmetic (wrapping modulo `2^32`) and only then
promoted to a real; the result depends only on `m` and `M` (hence is
independent of absorption order and of all weights strictly between them),
and whenever `m + M < 2^32` it equals the claimed real-valued formula
`(m+M)(m+M+1)/2 + M` exactly. -/
theorem blue_pairing_law (hist : List ℕ) (m M : ℕ)
    (hm : m ∈ hist) (hM : M ∈ hist)
    (hlb : ∀ x ∈ hist, m ≤ x) (hub : ∀ x ∈ hist, x ≤ M) :
    blueCalcScore hist
      = some (((((m + M) % 2 ^ 32 : ℕ) : ℚ) * ((((m + M) % 2 ^ 32 : ℕ) : ℚ) + 1)) / 2
          + (M : ℚ))
    ∧ (m + M < 2 ^ 32 →
        blueCalcScore hist
          = some ((((m : ℚ) + (M : ℚ)) * ((m : ℚ) + (M : ℚ) + 1)) / 2 + (M : ℚ))) := by
  have h1 := blueCalcScore_eq_pairing hist m M hm hM hlb hub
  constructor
  · rw [h1]
    rfl
  · intro hlt
    rw [h1]
    simp only [pairing, Nat.mod_eq_of_lt hlt, Option.some.injEq]
    push_cast
    ring

/-- Witness for C2 at the concrete history `[1, 5, 3]` with `m = 1`, `M = 5`. -/
theorem blue_pairing_law_witness :
    blueCalcScore [1, 5, 3]
      = some (((((1 + 5) % 2 ^ 32 : ℕ) : ℚ) * ((((1 + 5) % 2 ^ 32 : ℕ) : ℚ) + 1)) / 2
          + ((5 : ℕ) : ℚ))
    ∧ blueCalcScore [1, 5, 3]
      = some (((((1 : ℕ) : ℚ) + ((5 : ℕ) : ℚ)) * (((1 : ℕ) : ℚ) + ((5 : ℕ) : ℚ) + 1)) / 2
          + ((5 : ℕ) : ℚ)) := by
  have h := blue_pairing_law [1, 5, 3] 1 5 (by decide) (by decide) (by decide) (by decide)
  exact ⟨h.1, h.2 (by norm_num)⟩

/-- Counterexample to C2 as stated: with the single absorbed weight
`2^32 - 1 = 4294967295` (so `m = M = 4294967295`), the C++ adds `min + max`
in `uint32_t`, wrapping to `4294967294` before the promotion to `double`, so
the score differs from the claimed real-valued formula in which `m` and `M`
are promoted before the sum is formed. -/
theorem blue_pairing_counterexample :
    blueCalcScore [4294967295]
      ≠ some ((((4294967295 : ℚ) + (4294967295 : ℚ))
          * ((4294967295 : ℚ) + (4294967295 : ℚ) + 1)) / 2 + (4294967295 : ℚ)) := by
  norm_num [blueCalcScore, pairing]

/-- C3: for every non-empty green-box history, `calcScore` returns the square
of the mean of the last `min(3, len(history))` absorbed weights; in
particular `[w1]` scores `w1^2`, `[w1, w2]` scores `((w1+w2)/2)^2`, and after
four absorptions the score depends only on the last three weights. -/
theorem green_window_law (hist : List ℕ) (h : hist ≠ []) (w1 w2 w3 w4 v1 : ℕ) :
    greenCalcScore hist = some (specMean hist * specMean hist)
    ∧ greenCalcScore [w1] = some (((w1 : ℕ) : ℚ) * ((w1 : ℕ) : ℚ))
    ∧ greenCalcScore [w1, w2]
        = some (((((w1 : ℕ) : ℚ) + ((w2 : ℕ) : ℚ)) / 2)
            * ((((w1 : ℕ) : ℚ) + ((w2 : ℕ) : ℚ)) / 2))
    ∧ greenCalcScore [w1, w2, w3, w4] = greenCalcScore [v1, w2, w3, w4] := by
  refine ⟨greenCalcScore_eq_specMean hist h, ?_, ?_, ?_⟩
  · norm_num [greenCalcScore, sumQ]
  · norm_num [greenCalcScore, sumQ]
  · norm_num [greenCalcScore, sumQ, List.getD]

/-- Witness for C3 at the concrete history `[2]` and weights `1, 2, 3, 4, 5`. -/
theorem green_window_law_witness :
    greenCalcScore [2] = some (specMean [2] * specMean [2])
    ∧ greenCalcScore [1] = some (((1 : ℕ) : ℚ) * ((1 : ℕ) : ℚ))
    ∧ greenCalcScore [1, 2]
        = some (((((1 : ℕ) : ℚ) + ((2 : ℕ) : ℚ)) / 2)
            * ((((1 : ℕ) : ℚ) + ((2 : ℕ) : ℚ)) / 2))
    ∧ greenCalcScore [1, 2, 3, 4] = greenCalcScore [5, 2, 3, 4] :=
  green_window_law [2] (by decide) 1 2 3 4 5

/-- C4 (amended): for every non-empty collection of at most 65536 boxes,
`findSmallestBox` returns the smallest index achieving the minimum current
weight: the returned index's weight is a lower bound of all weights, and
every strictly earlier index has strictly greater weight (first minimum
wins).  The bound 65536 is forced by the `uint16_t` cast of the loop index. -/
theorem selection_first_min (boxes : List Box) (h1 : boxes ≠ []) (h2 : boxes.length ≤ 65536) :
    (∀ j, j < boxes.length →
      (boxes.getD (findSmallestBox boxes) default).weight ≤ (boxes.getD j default).weight)
    ∧ ∀ j, j < findSmallestBox boxes →
      (boxes.getD (findSmallestBox boxes) default).weight < (boxes.getD j default).weight :=
  findSmallestBox_spec boxes h1 h2

/-- Witness for C4 at the concrete four-box initial collection. -/
theorem selection_first_min_witness :
    (∀ j, j < initialBoxes.length →
      (initialBoxes.getD (findSmallestBox initialBoxes) default).weight
        ≤ (initialBoxes.getD j default).weight)
    ∧ ∀ j, j < findSmallestBox initialBoxes →
      (initialBoxes.getD (findSmallestBox initialBoxes) default).weight
        < (initialBoxes.getD j default).weight :=
  selection_first_min initialBoxes initialBoxes_ne_nil (by norm_num [initialBoxes])

/-- Counterexample to C4 as stated: in a collection of 65537 boxes whose
unique minimum sits at index 65536, the selector returns index 0 (the
`static_cast<uint16_t>` of 65536), whose weight is strictly greater than the
weight at index 65536 — so the returned index does not achieve the minimum. -/
theorem selection_truncation_counterexample :
    findSmallestBox badBoxes = 0
    ∧ (badBoxes.getD 65536 default).weight < (badBoxes.getD 0 default).weight := by
  refine ⟨findSmallestBox_badBoxes, ?_⟩
  rw [badBoxes_getD_last, badBoxes_getD_lt 0 (by norm_num)]
  norm_num [boxZero, boxOne]

/-- C5: `play` on the spec's end-to-end scenarios returns exactly the stated
score pairs: `(13, 25)` on `[1,1,2,3]`, `(155, 366.25)` on
`[1,1,2,3,5,8,13,21]`, and `(0, 0)` on the empty input. -/
theorem play_end_to_end :
    play [1, 1, 2, 3] = some (13, 25)
    ∧ play [1, 1, 2, 3, 5, 8, 13, 21] = some (155, 366.25)
    ∧ play [] = some (0, 0) := by
  refine ⟨?_, ?_, ?_⟩
  · norm_num [play, runTurns, stepTurn, takeTurn, findSmallestBox, selStep, calcScore,
      greenCalcScore, blueCalcScore, boxAbsorb, sumQ, initState, initialBoxes, bumpCount,
      pairing, List.range', List.getD]
  · norm_num [play, runTurns, stepTurn, takeTurn, findSmallestBox, selStep, calcScore,
      greenCalcScore, blueCalcScore, boxAbsorb, sumQ, initState, initialBoxes, bumpCount,
      pairing, List.range', List.getD]
  · norm_num [play, runTurns, initState]

/-- C6: in every state reachable by `play` from the fresh initial collection,
every box's current weight equals its initial weight plus the sum of its
absorbed history (absorption is the only mutation and keeps the invariant). -/
theorem weight_invariant (ws : List ℕ) (st : PlayState)
    (h : runTurns initState ws = some st) (i : ℕ) (hi : i < st.boxes.length) :
    (st.boxes.getD i default).weight
      = (initialBoxes.getD i default).weight + sumQ (st.boxes.getD i default).absorbed := by
  have base : ∀ j, j < initState.boxes.length →
      (initState.boxes.getD j default).weight
        = (initialBoxes.getD j default).weight
          + sumQ (initState.boxes.getD j default).absorbed := by
    intro j hj
    have hj4 : j < 4 := by simpa [initState, initialBoxes] using hj
    interval_cases j <;> norm_num [initState, initialBoxes, List.getD, sumQ]
  obtain ⟨_, hinv⟩ := runTurns_inv ws initState st h rfl base
  exact hinv i hi

/-- Witness for C6 after the single turn `[5]`, at box index `0`. -/
theorem weight_invariant_witness :
    (stateAfterFive.boxes.getD 0 default).weight
      = (initialBoxes.getD 0 default).weight
        + sumQ (stateAfterFive.boxes.getD 0 default).absorbed :=
  weight_invariant [5] stateAfterFive runTurns_initState_five 0 (by norm_num [stateAfterFive])

/-- C7: the history read by `calcScore` inside `takeTurn` is the just-absorbed
box's history, hence non-empty, so `takeTurn` never hits an empty-history
error branch, and `play` succeeds on every input (the modelled `none`
branches — NaN division in the green box, end-iterator dereference in the
blue box — are unreachable during play). -/
theorem score_read_nonempty_history (ws : List ℕ) (score : ℚ) (boxes : List Box) (w : ℕ)
    (h : boxes ≠ []) :
    ((boxes.set (findSmallestBox boxes)
        (boxAbsorb (boxes.getD (findSmallestBox boxes) default) w)).getD
        (findSmallestBox boxes) default).absorbed ≠ []
    ∧ (takeTurn score boxes w).isSome = true
    ∧ (play ws).isSome = true := by
  have hlt := findSmallestBox_lt boxes h
  have hset := getD_set_self boxes (findSmallestBox boxes)
    (boxAbsorb (boxes.getD (findSmallestBox boxes) default) w) hlt
  refine ⟨?_, ?_, ?_⟩
  · rw [hset]
    exact boxAbsorb_absorbed_ne_nil _ _
  · obtain ⟨q, _, htake⟩ := takeTurn_eq score boxes w h
    rw [htake]
    rfl
  · obtain ⟨st', hrun, _⟩ := runTurns_char ws initState initialBoxes_ne_nil
    simp [play, hrun]

/-- Witness for C7 at the initial collection with input weight `7`. -/
theorem score_read_nonempty_history_witness :
    ((initialBoxes.set (findSmallestBox initialBoxes)
        (boxAbsorb (initialBoxes.getD (findSmallestBox initialBoxes) default) 7)).getD
        (findSmallestBox initialBoxes) default).absorbed ≠ []
    ∧ (takeTurn 0 initialBoxes 7).isSome = true
    ∧ (play [1, 2]).isSome = true :=
  score_read_nonempty_history [1, 2] 0 initialBoxes 7 initialBoxes_ne_nil

/-- C8: across any run of turns, each player's accumulated score is
non-decreasing — every score added is a squared mean (green) or a pairing
value (blue), both non-negative. -/
theorem score_monotone (st st' : PlayState) (ws : List ℕ)
    (h : runTurns st ws = some st') :
    st.scoreA ≤ st'.scoreA ∧ st.scoreB ≤ st'.scoreB :=
  runTurns_mono ws st st' h

/-- Witness for C8 on the run `[5]` from the initial state. -/
theorem score_monotone_witness :
    initState.scoreA ≤ stateAfterFive.scoreA ∧ initState.scoreB ≤ stateAfterFive.scoreB :=
  score_monotone initState stateAfterFive [5] runTurns_initState_five

/-- C9: `play` is deterministic and stateless across invocations: two calls
on the same input sequence return the same score pair (each call rebuilds the
fresh initial state, and the embedding is a pure function of the input). -/
theorem play_deterministic (ws : List ℕ) (r1 r2 : Option (ℚ × ℚ))
    (h1 : play ws = r1) (h2 : play ws = r2) : r1 = r2 := by
  rw [← h1, ← h2]

/-- Witness for C9 on the input `[5]`. -/
theorem play_deterministic_witness :
    (some ((25 : ℚ), (0 : ℚ)) : Option (ℚ × ℚ)) = some ((25 : ℚ), (0 : ℚ)) := by
  have hp : play [5] = some ((25 : ℚ), (0 : ℚ)) := by
    rw [play, runTurns_initState_five]
    rfl
  exact play_deterministic [5] _ _ hp hp

/-- C10: `findSmallestBox` is total at its interface: it returns `0` on the
empty collection (the loop body never runs), and on every non-empty
collection of at most 65536 boxes it returns an index strictly below the
collection's size. -/
theorem findSmallestBox_total (boxes : List Box) (h1 : boxes ≠ [])
    (h2 : boxes.length ≤ 65536) :
    findSmallestBox ([] : List Box) = 0 ∧ findSmallestBox boxes < boxes.length :=
  ⟨rfl, findSmallestBox_lt boxes h1⟩

/-- Witness for C10 at the concrete four-box initial collection. -/
theorem findSmallestBox_total_witness :
    findSmallestBox ([] : List Box) = 0
    ∧ findSmallestBox initialBoxes < initialBoxes.length :=
  findSmallestBox_total initialBoxes initialBoxes_ne_nil (by norm_num [initialBoxes])

end Asaphus
